import Mathlib

/-!
Shallow embedding of `mio-child-process` (src/lib.rs) and proofs about it.

The crate bridges a child process's stdout/stderr/exit into a single
mio-registrable event channel.  We model:

* `ProcessEvent` / `StdioChannel` — the public event data model;
* `decodeUtf8` — `std::str::from_utf8` (strict UTF-8 validation, text
  modelled as a list of Unicode code points);
* `trySendBuffer` — the per-chunk decode-and-send step `try_send_buffer`;
* `runReader` — the stream-reader thread body built by `create_reader`,
  run against a script of read results;
* `runWaiter` — the exit-waiter closure spawned in `Process.from_child`,
  run against the result of `wait_with_output`;
* `killPid` / `killChildren` — the recursive windows `kill_pid` over a
  snapshot map, with a terminate oracle and explicit fuel;
* `Process.write` / `Process.flush` — the `Write` impl;
* a channel state machine for the mpsc receiver (modelled from the spec,
  the channel itself is an external collaborator).

Sends through the channel are modelled by an oracle `send : ProcessEvent →
Bool` telling whether each attempted send is accepted (the receiver is
still connected); the traces collect the events actually delivered.
-/

/-- Which stream an event pertains to (`StdioChannel` in the source). -/
inductive StdioChannel
  | stdout
  | stderr
deriving DecidableEq, Repr

/-- `ProcessEvent` from the source.  Error payloads are modelled as `Nat`
identifiers; `Data`'s decoded string is a list of Unicode code points;
`ExitStatus` is a `Nat` status code. -/
inductive ProcessEvent
  | data (ch : StdioChannel) (text : List Nat)
  | commandError (e : Nat)
  | ioError (ch : StdioChannel) (e : Nat)
  | utf8Error (ch : StdioChannel)
  | exit (status : Nat)
deriving DecidableEq, Repr

namespace ProcessEvent

/-- Recognise `Data` events. -/
def isData : ProcessEvent → Bool
  | .data _ _ => true
  | _ => false

/-- Recognise the `Exit` event. -/
def isExit : ProcessEvent → Bool
  | .exit _ => true
  | _ => false

/-- Recognise the `CommandError` event. -/
def isCommandError : ProcessEvent → Bool
  | .commandError _ => true
  | _ => false

/-- Recognise the terminal error events of a stream reader
(`IoError` or `Utf8Error`). -/
def isReaderError : ProcessEvent → Bool
  | .ioError _ _ => true
  | .utf8Error _ => true
  | _ => false

end ProcessEvent

/-- Partial state of the UTF-8 validator in the middle of a multi-byte
sequence: the code-point bits accumulated so far, the number of
continuation bytes still expected (`0` = at a character boundary), and
the allowed range for the next byte (tightened on the second byte of a
sequence to exclude overlong forms, surrogates and values past
U+10FFFF). -/
structure Utf8Partial where
  acc : Nat
  rem : Nat
  lo : Nat
  hi : Nat
deriving DecidableEq, Repr

/-- The validator state at a character boundary. -/
def utf8Boundary : Utf8Partial := ⟨0, 0, 0x80, 0xBF⟩

/-- Process one byte of the strict UTF-8 validation that
`std::str::from_utf8` performs: `out` is the list of code points
completed so far, `p` the pending multi-byte state.  At a boundary the
byte is classified as ASCII or a lead byte (rejecting `0x80..0xC1` and
`0xF5..`); inside a sequence it must be a continuation byte in the
allowed range. -/
def utf8Step (out : List Nat) (p : Utf8Partial) (b : Nat) :
    Option (List Nat × Utf8Partial) :=
  if p.rem = 0 then
    if b < 0x80 then some (out ++ [b], utf8Boundary)
    else if 0xC2 ≤ b ∧ b ≤ 0xDF then some (out, ⟨b - 0xC0, 1, 0x80, 0xBF⟩)
    else if b = 0xE0 then some (out, ⟨0, 2, 0xA0, 0xBF⟩)
    else if b = 0xED then some (out, ⟨0xD, 2, 0x80, 0x9F⟩)
    else if 0xE1 ≤ b ∧ b ≤ 0xEF then some (out, ⟨b - 0xE0, 2, 0x80, 0xBF⟩)
    else if b = 0xF0 then some (out, ⟨0, 3, 0x90, 0xBF⟩)
    else if b = 0xF4 then some (out, ⟨4, 3, 0x80, 0x8F⟩)
    else if 0xF1 ≤ b ∧ b ≤ 0xF3 then some (out, ⟨b - 0xF0, 3, 0x80, 0xBF⟩)
    else none
  else
    if p.lo ≤ b ∧ b ≤ p.hi then
      if p.rem = 1 then some (out ++ [p.acc * 0x40 + (b - 0x80)], utf8Boundary)
      else some (out, ⟨p.acc * 0x40 + (b - 0x80), p.rem - 1, 0x80, 0xBF⟩)
    else none

/-- Run the UTF-8 validator over a byte list from a given state. -/
def utf8Run (out : List Nat) (p : Utf8Partial) :
    List Nat → Option (List Nat × Utf8Partial)
  | [] => some (out, p)
  | b :: rest =>
    match utf8Step out p b with
    | none => none
    | some (out', p') => utf8Run out' p' rest

/-- Strict UTF-8 decoding of a byte list into a list of Unicode code
points, modelling `std::str::from_utf8`: rejects stray continuation
bytes, overlong forms, surrogates, values past U+10FFFF and sequences
truncated at the end of the input.  `none` models `Err(Utf8Error)`. -/
def decodeUtf8 (bytes : List Nat) : Option (List Nat) :=
  match utf8Run [] utf8Boundary bytes with
  | none => none
  | some (out, p) => if p.rem = 0 then some out else none

/-- `SendResult` from the source. -/
inductive SendResult
  | abort
  | ok
deriving DecidableEq, Repr

/-- `try_send_buffer(buffer, channel, sender)`.  Returns the events
delivered through the channel (those accepted by the `send` oracle)
together with the `SendResult`.  Mirrors the source: decode failure sends
`Utf8Error` (result ignored) and aborts; an empty decoded string aborts
without sending; otherwise `Data` is sent, aborting if the send fails. -/
def trySendBuffer (send : ProcessEvent → Bool) (buffer : List Nat)
    (channel : StdioChannel) : List ProcessEvent × SendResult :=
  match decodeUtf8 buffer with
  | none =>
    if send (.utf8Error channel) then ([.utf8Error channel], .abort)
    else ([], .abort)
  | some str =>
    if str.isEmpty then ([], .abort)
    else if send (.data channel str) then ([.data channel str], .ok)
    else ([], .abort)

/-- One result of `stream.read(&mut buffer)` in the reader loop:
`Ok(n)` carries the `n` bytes read (`n = 0` is end of stream), `Err(e)`
a read error. -/
inductive ReadResult
  | ok (bytes : List Nat)
  | err (e : Nat)
deriving DecidableEq, Repr

/-- The reader-thread body built by `create_reader`, run against a script
of read results (the values returned by successive blocking reads).
Returns the events delivered through the channel.  Mirrors the source
loop: `Ok(0)` breaks; `Ok(n)` feeds the bytes to `try_send_buffer`,
breaking on `Abort`; `Err(e)` sends `IoError` and breaks.  An exhausted
script ends the trace (the real stream always eventually yields `Ok(0)`
or an error). -/
def runReader (send : ProcessEvent → Bool) (channel : StdioChannel) :
    List ReadResult → List ProcessEvent
  | [] => []
  | .ok bytes :: rest =>
    if bytes.isEmpty then []
    else
      match trySendBuffer send bytes channel with
      | (evs, .ok) => evs ++ runReader send channel rest
      | (evs, .abort) => evs
  | .err e :: _ =>
    if send (.ioError channel e) then [.ioError channel e] else []

/-- The value of `child.wait_with_output()` seen by the exit waiter:
either an error, or the collected trailing stdout/stderr buffers plus
the exit status. -/
inductive WaitResult
  | err (e : Nat)
  | ok (stdoutBuf stderrBuf : List Nat) (status : Nat)
deriving DecidableEq, Repr

/-- `if !result.stdout.is_empty() && Abort == try_send_buffer(&result.stdout,
Stdout, &sender) { return; }`: the trailing-stdout forwarding guard of the
exit waiter — an empty buffer is skipped (counts as success), otherwise
the buffer goes through `try_send_buffer`. -/
def stdoutStep (send : ProcessEvent → Bool) (stdoutBuf : List Nat) :
    List ProcessEvent × SendResult :=
  if stdoutBuf.isEmpty then ([], .ok)
  else trySendBuffer send stdoutBuf .stdout

/-- `if !result.stderr.is_empty() && Abort == try_send_buffer(&result.stderr,
Stderr, &sender) { return; }`: the stderr half of the same guard. -/
def stderrStep (send : ProcessEvent → Bool) (stderrBuf : List Nat) :
    List ProcessEvent × SendResult :=
  if stderrBuf.isEmpty then ([], .ok)
  else trySendBuffer send stderrBuf .stderr

/-- The exit-waiter closure spawned in `Process.from_child`, run against
the result of `wait_with_output`.  Returns the events delivered through
the channel.  Mirrors the source: a wait error sends `CommandError` and
returns; otherwise each non-empty trailing buffer (stdout first, then
stderr) goes through `try_send_buffer`, any `Abort` returning early;
finally `Exit(status)` is sent. -/
def runWaiter (send : ProcessEvent → Bool) : WaitResult → List ProcessEvent
  | .err e => if send (.commandError e) then [.commandError e] else []
  | .ok stdoutBuf stderrBuf status =>
    match stdoutStep send stdoutBuf with
    | (evs1, .abort) => evs1
    | (evs1, .ok) =>
      match stderrStep send stderrBuf with
      | (evs2, .abort) => evs1 ++ evs2
      | (evs2, .ok) =>
        evs1 ++ evs2 ++ (if send (.exit status) then [.exit status] else [])

/-- Look a pid up in the snapshot map (windows `kill`: the `HashMap` from
parent id to the list of child ids built from `CreateToolhelp32Snapshot`),
modelled as an association list. -/
def lookupChildren (processes : List (Nat × List Nat)) (pid : Nat) :
    Option (List Nat) :=
  (processes.find? (fun entry => entry.1 = pid)).map Prod.snd

/-- The children a snapshot records for `pid` (empty when `pid` is not a
key of the map). -/
def childrenOf (processes : List (Nat × List Nat)) (pid : Nat) : List Nat :=
  (lookupChildren processes pid).getD []

/-- `c` is recorded as a child of `p` in the snapshot map. -/
def childOf (processes : List (Nat × List Nat)) (c p : Nat) : Prop :=
  c ∈ childrenOf processes p

instance (processes : List (Nat × List Nat)) (c p : Nat) :
    Decidable (childOf processes c p) := by
  unfold childOf; infer_instance

mutual
/-- The recursive `kill_pid(pid, processes)` of the windows `kill`.
`term pid` is the oracle for "open a `PROCESS_TERMINATE` handle to `pid`
and `TerminateProcess` it" succeeding.  The recursion is bounded by
explicit `fuel` (`none` = fuel exhausted; the Rust recursion has no other
bound).  On `some (trace, ok)`, `trace` lists in order every pid for which
a terminate was attempted and `ok` tells whether the whole call returned
`Ok(())` (`false` = some step failed and the `?` aborted the operation
with that error). -/
def killPid (term : Nat → Bool) (processes : List (Nat × List Nat)) :
    Nat → Nat → Option (List Nat × Bool)
  | 0, _ => none
  | fuel + 1, pid =>
    match lookupChildren processes pid with
    | none => some ([pid], term pid)
    | some children =>
      match killChildren term processes fuel children with
      | none => none
      | some (trace, false) => some (trace, false)
      | some (trace, true) => some (trace ++ [pid], term pid)
termination_by fuel _ => (fuel, 0)

/-- The `for child in children { kill_pid(*child, processes)?; }` loop:
kill each child's subtree in order, aborting at the first error. -/
def killChildren (term : Nat → Bool) (processes : List (Nat × List Nat)) :
    Nat → List Nat → Option (List Nat × Bool)
  | _, [] => some ([], true)
  | fuel, c :: cs =>
    match killPid term processes fuel c with
    | none => none
    | some (trace, false) => some (trace, false)
    | some (trace, true) =>
      match killChildren term processes fuel cs with
      | none => none
      | some (trace2, b) => some (trace ++ trace2, b)
termination_by fuel cs => (fuel, cs.length + 1)
end

mutual
/-- Depth-first, leaves-first (post-order) traversal of the snapshot
tree below `pid`: every recorded descendant subtree in order, then `pid`
itself last.  Same fuel discipline as `killPid`. -/
def postorder (processes : List (Nat × List Nat)) :
    Nat → Nat → Option (List Nat)
  | 0, _ => none
  | fuel + 1, pid =>
    match lookupChildren processes pid with
    | none => some [pid]
    | some children =>
      match postorderList processes fuel children with
      | none => none
      | some trace => some (trace ++ [pid])
termination_by fuel _ => (fuel, 0)

/-- Post-order traversal of a list of sibling subtrees, in order. -/
def postorderList (processes : List (Nat × List Nat)) :
    Nat → List Nat → Option (List Nat)
  | _, [] => some []
  | fuel, c :: cs =>
    match postorder processes fuel c with
    | none => none
    | some trace =>
      match postorderList processes fuel cs with
      | none => none
      | some trace2 => some (trace ++ trace2)
termination_by fuel cs => (fuel, cs.length + 1)
end

/-- The `Process` façade (receiver modelled separately): the optional
stdin handle, present iff the child was spawned with
`.stdin(Stdio::piped())`, and the cached OS pid.  `σ` is the state type
of the child's stdin stream. -/
structure Process (σ : Type) where
  stdin : Option σ
  id : Nat

/-- Error kinds surfaced synchronously by `write`/`flush`
(`ErrorKind::NotConnected`, or an OS-level error from the stream). -/
inductive WriteError
  | notConnected
  | osError (e : Nat)
deriving DecidableEq, Repr

/-- `impl Write for Process`, `write`: pass the buffer to the child's
stdin if captured, else `Err(ErrorKind::NotConnected)`.  `stdinWrite`
models `ChildStdin::write` (result plus updated stream state). -/
def Process.write {σ : Type}
    (stdinWrite : σ → List Nat → Except WriteError Nat × σ)
    (p : Process σ) (buf : List Nat) : Except WriteError Nat × Process σ :=
  match p.stdin with
  | some s =>
    let (r, s') := stdinWrite s buf
    (r, { p with stdin := some s' })
  | none => (.error .notConnected, p)

/-- `impl Write for Process`, `flush`: flush the child's stdin if
captured, else `Err(ErrorKind::NotConnected)`. -/
def Process.flush {σ : Type}
    (stdinFlush : σ → Except WriteError Unit × σ)
    (p : Process σ) : Except WriteError Unit × Process σ :=
  match p.stdin with
  | some s =>
    let (r, s') := stdinFlush s
    (r, { p with stdin := some s' })
  | none => (.error .notConnected, p)

/-- Modelled from the spec: the state of the mpsc event channel that
`Process::try_recv` delegates to (the channel implementation lives in
`mio_extras`/`std`, outside this repository's sources): the queued events
in delivery order and the number of live sender clones. -/
structure ChannelState where
  queue : List ProcessEvent
  senders : Nat
deriving DecidableEq, Repr

/-- `std::sync::mpsc::TryRecvError`. -/
inductive TryRecvError
  | empty
  | disconnected
deriving DecidableEq, Repr

/-- Modelled from the spec: `Process::try_recv` (delegating to the
receiver's `try_recv`): the next queued event if any; otherwise `Empty`
while a sender is live, `Disconnected` once every sender has been
dropped (§3: the receiving end observes "disconnected" once every
producer has finished). -/
def tryRecv : ChannelState → Except TryRecvError ProcessEvent × ChannelState
  | ⟨[], 0⟩ => (.error .disconnected, ⟨[], 0⟩)
  | ⟨[], n + 1⟩ => (.error .empty, ⟨[], n + 1⟩)
  | ⟨e :: q, n⟩ => (.ok e, ⟨q, n⟩)

/-- Modelled from the spec: what the producer side can do between two
consumer calls — a live sender sends an event, or a sender is dropped
when its background thread exits.  No step creates senders: they are all
cloned before the threads start. -/
inductive ChannelStep : ChannelState → ChannelState → Prop
  | send (e : ProcessEvent) (q : List ProcessEvent) (n : Nat) :
      ChannelStep ⟨q, n + 1⟩ ⟨q ++ [e], n + 1⟩
  | drop (q : List ProcessEvent) (n : Nat) :
      ChannelStep ⟨q, n + 1⟩ ⟨q, n⟩

/-- The concatenated text of the `Data` events of a trace, in delivery
order (the code points the consumer reassembles for one stream). -/
def dataText : List ProcessEvent → List Nat
  | [] => []
  | .data _ s :: rest => s ++ dataText rest
  | _ :: rest => dataText rest

/-- The events the exit waiter delivers for the trailing stdout buffer
when its forwarding step succeeds: nothing for an empty buffer, one
non-empty `Data(Stdout, _)` event accepted by the channel otherwise. -/
def StdoutForwarded (send : ProcessEvent → Bool) (outB : List Nat)
    (evs : List ProcessEvent) : Prop :=
  (outB = [] ∧ evs = []) ∨
    ∃ s, decodeUtf8 outB = some s ∧ s ≠ [] ∧ send (.data .stdout s) = true ∧
      evs = [.data .stdout s]

/-- The events the exit waiter delivers for the trailing stderr buffer
when its forwarding step succeeds. -/
def StderrForwarded (send : ProcessEvent → Bool) (errB : List Nat)
    (evs : List ProcessEvent) : Prop :=
  (errB = [] ∧ evs = []) ∨
    ∃ s, decodeUtf8 errB = some s ∧ s ≠ [] ∧ send (.data .stderr s) = true ∧
      evs = [.data .stderr s]

/-- The distinct parent pids recorded in the snapshot map. -/
def snapKeys (processes : List (Nat × List Nat)) : List Nat :=
  (processes.map Prod.fst).dedup

/-- A 1024-byte read that fills the reader's fixed buffer and ends in
the middle of the two-byte UTF-8 encoding of `é` (`0xC3 0xA9`). -/
def splitChunk1 : List Nat := List.replicate 1023 0x61 ++ [0xC3]

/-- The next read: the continuation byte completing `é`. -/
def splitChunk2 : List Nat := [0xA9]

theorem utf8Run_append (l1 l2 : List Nat) (out : List Nat) (p : Utf8Partial) :
    utf8Run out p (l1 ++ l2) =
      match utf8Run out p l1 with
      | none => none
      | some (o, q) => utf8Run o q l2 := by
  induction l1 generalizing out p with
  | nil => simp [utf8Run]
  | cons b l1 ih =>
    simp only [List.cons_append, utf8Run]
    cases utf8Step out p b with
    | none => rfl
    | some r => exact ih r.1 r.2

theorem utf8Step_out_prepend (pre out : List Nat) (p : Utf8Partial) (b : Nat) :
    utf8Step (pre ++ out) p b =
      (utf8Step out p b).map (fun r => (pre ++ r.1, r.2)) := by
  simp only [utf8Step]
  repeat' split
  all_goals simp

theorem utf8Run_out_prepend (l : List Nat) (pre out : List Nat) (p : Utf8Partial) :
    utf8Run (pre ++ out) p l =
      (utf8Run out p l).map (fun r => (pre ++ r.1, r.2)) := by
  induction l generalizing out p with
  | nil => simp [utf8Run]
  | cons b l ih =>
    simp only [utf8Run, utf8Step_out_prepend]
    cases h : utf8Step out p b with
    | none => rfl
    | some r => exact ih r.1 r.2

set_option maxRecDepth 4000 in
theorem utf8Step_rem_zero (out : List Nat) (p : Utf8Partial) (b : Nat)
    (o : List Nat) (q : Utf8Partial) (h : utf8Step out p b = some (o, q))
    (hq : q.rem = 0) : q = utf8Boundary := by
  simp only [utf8Step] at h
  repeat' split at h
  all_goals try exact Option.noConfusion h
  all_goals
    simp only [Option.some.injEq, Prod.mk.injEq] at h
  all_goals obtain ⟨h1, h2⟩ := h
  all_goals subst h2
  all_goals simp only [utf8Boundary] at hq ⊢
  all_goals try simp at hq
  all_goals exfalso
  all_goals omega

theorem utf8Run_boundary (l : List Nat) (out : List Nat) (p : Utf8Partial)
    (o : List Nat) (q : Utf8Partial) (h : utf8Run out p l = some (o, q))
    (hq : q.rem = 0) : q = utf8Boundary ∨ q = p := by
  induction l generalizing out p with
  | nil =>
    simp only [utf8Run, Option.some.injEq, Prod.mk.injEq] at h
    exact Or.inr (h.2.symm)
  | cons b l ih =>
    simp only [utf8Run] at h
    cases hs : utf8Step out p b with
    | none => rw [hs] at h; exact Option.noConfusion h
    | some r =>
      rw [hs] at h
      rcases ih r.1 r.2 h with hb | hp
      · exact Or.inl hb
      · subst hp
        exact Or.inl (utf8Step_rem_zero out p b r.1 r.2 hs hq)

theorem utf8Step_out_mono (out : List Nat) (p : Utf8Partial) (b : Nat)
    (o : List Nat) (q : Utf8Partial) (h : utf8Step out p b = some (o, q)) :
    out.length ≤ o.length := by
  simp only [utf8Step] at h
  repeat' split at h
  all_goals try exact Option.noConfusion h
  all_goals simp only [Option.some.injEq, Prod.mk.injEq] at h
  all_goals obtain ⟨h1, h2⟩ := h
  all_goals subst h1
  all_goals simp

theorem utf8Run_out_mono (l : List Nat) (out : List Nat) (p : Utf8Partial)
    (o : List Nat) (q : Utf8Partial) (h : utf8Run out p l = some (o, q)) :
    out.length ≤ o.length := by
  induction l generalizing out p with
  | nil =>
    simp only [utf8Run, Option.some.injEq, Prod.mk.injEq] at h
    rw [h.1]
  | cons b l ih =>
    simp only [utf8Run] at h
    cases hs : utf8Step out p b with
    | none => rw [hs] at h; exact Option.noConfusion h
    | some r =>
      rw [hs] at h
      exact le_trans (utf8Step_out_mono out p b r.1 r.2 (by rw [hs])) (ih r.1 r.2 h)

theorem utf8Run_mid_progress (l : List Nat) (out : List Nat) (p : Utf8Partial)
    (o : List Nat) (q : Utf8Partial) (h : utf8Run out p l = some (o, q))
    (hp : p.rem ≠ 0) (hq : q.rem = 0) : out.length < o.length := by
  induction l generalizing out p with
  | nil =>
    simp only [utf8Run, Option.some.injEq, Prod.mk.injEq] at h
    exact absurd (h.2 ▸ hq) hp
  | cons b l ih =>
    simp only [utf8Run] at h
    cases hs : utf8Step out p b with
    | none => rw [hs] at h; exact Option.noConfusion h
    | some r =>
      obtain ⟨o', p'⟩ := r
      rw [hs] at h
      by_cases hlt : out.length < o'.length
      · exact lt_of_lt_of_le hlt (utf8Run_out_mono l o' p' o q h)
      · have hrem : p'.rem ≠ 0 := by
          simp only [utf8Step, if_neg hp] at hs
          repeat' split at hs
          all_goals try exact Option.noConfusion hs
          all_goals simp only [Option.some.injEq, Prod.mk.injEq] at hs
          all_goals obtain ⟨h1, h2⟩ := hs
          · exfalso
            rw [← h1] at hlt
            simp at hlt
          · rw [← h2]
            simp
            omega
        have hmono := utf8Step_out_mono out p b o' p' hs
        have hih := ih o' p' h hrem
        omega

theorem decodeUtf8_append (b1 b2 : List Nat) (s1 : List Nat)
    (h : decodeUtf8 b1 = some s1) :
    decodeUtf8 (b1 ++ b2) = (decodeUtf8 b2).map (fun s => s1 ++ s) := by
  simp only [decodeUtf8] at h ⊢
  cases h1 : utf8Run [] utf8Boundary b1 with
  | none =>
    rw [h1] at h
    exact Option.noConfusion h
  | some r =>
    obtain ⟨o1, q1⟩ := r
    rw [h1] at h
    dsimp only at h
    by_cases hrem : q1.rem = 0
    · rw [if_pos hrem] at h
      obtain rfl : o1 = s1 := by simpa using h
      obtain rfl : q1 = utf8Boundary := by
        rcases utf8Run_boundary b1 [] utf8Boundary o1 q1 h1 hrem with hb | hb <;> exact hb
      rw [utf8Run_append b1 b2 [] utf8Boundary, h1]
      dsimp only
      have hpre := utf8Run_out_prepend b2 o1 [] utf8Boundary
      rw [List.append_nil] at hpre
      rw [hpre]
      cases h2 : utf8Run [] utf8Boundary b2 with
      | none => rfl
      | some r2 =>
        obtain ⟨o2, q2⟩ := r2
        dsimp only [Option.map_some']
        by_cases hrem2 : q2.rem = 0
        · simp [if_pos hrem2]
        · simp [if_neg hrem2]
    · rw [if_neg hrem] at h
      exact Option.noConfusion h

set_option maxRecDepth 4000 in
theorem decodeUtf8_cons_ne_nil (b : Nat) (rest : List Nat) (s : List Nat)
    (h : decodeUtf8 (b :: rest) = some s) : s ≠ [] := by
  simp only [decodeUtf8] at h
  cases h1 : utf8Run [] utf8Boundary (b :: rest) with
  | none =>
    rw [h1] at h
    exact Option.noConfusion h
  | some r =>
    obtain ⟨o, q⟩ := r
    rw [h1] at h
    dsimp only at h
    by_cases hrem : q.rem = 0
    · rw [if_pos hrem] at h
      obtain rfl : o = s := by simpa using h
      -- the first byte either completes an ASCII char or starts a
      -- multi-byte sequence that must complete before the end
      simp only [utf8Run] at h1
      cases hs : utf8Step [] utf8Boundary b with
      | none =>
        rw [hs] at h1
        exact Option.noConfusion h1
      | some r'
      =>
        obtain ⟨o', p'⟩ := r'
        rw [hs] at h1
        dsimp only at h1
        by_cases hrem' : p'.rem = 0
        · -- at a boundary after one byte: must be the ASCII branch
          have ho' : o' = [b] := by
            simp [utf8Step, utf8Boundary] at hs
            repeat' split at hs
            all_goals try exact Option.noConfusion hs
            all_goals simp only [Option.some.injEq, Prod.mk.injEq] at hs
            all_goals obtain ⟨h1', h2'⟩ := hs
            all_goals first
              | (exact (by simpa using h1'.symm))
              | (rw [← h2'] at hrem'; simp at hrem')
          have hm := utf8Run_out_mono rest o' p' o q h1
          rw [ho'] at hm
          intro hnil
          rw [hnil] at hm
          simp at hm
        · have hm := utf8Run_mid_progress rest o' p' o q h1 hrem' hrem
          intro hnil
          rw [hnil] at hm
          simp at hm
    · rw [if_neg hrem] at h
      exact Option.noConfusion h

theorem decodeUtf8_eq_nil (bytes : List Nat) (h : decodeUtf8 bytes = some []) :
    bytes = [] := by
  cases bytes with
  | nil => rfl
  | cons b rest => exact absurd rfl (decodeUtf8_cons_ne_nil b rest [] h)

theorem trySendBuffer_cases (send : ProcessEvent → Bool) (b : List Nat)
    (ch : StdioChannel) :
    trySendBuffer send b ch = ([], .abort) ∨
    (decodeUtf8 b = none ∧ trySendBuffer send b ch = ([.utf8Error ch], .abort)) ∨
    (∃ s, decodeUtf8 b = some s ∧ s ≠ [] ∧ send (.data ch s) = true ∧
      trySendBuffer send b ch = ([.data ch s], .ok)) := by
  simp only [trySendBuffer]
  cases hd : decodeUtf8 b with
  | none =>
    cases hsend : send (.utf8Error ch) with
    | true => exact Or.inr (Or.inl ⟨rfl, by simp [hsend]⟩)
    | false => exact Or.inl (by simp [hsend])
  | some s =>
    by_cases hnil : s.isEmpty
    · exact Or.inl (by simp [hnil])
    · cases hsend : send (.data ch s) with
      | true =>
        refine Or.inr (Or.inr ⟨s, rfl, ?_, hsend, by simp [hnil, hsend]⟩)
        simpa [List.isEmpty_iff] using hnil
      | false => exact Or.inl (by simp [hnil, hsend])

theorem trySendBuffer_success (send : ProcessEvent → Bool) (b : List Nat)
    (ch : StdioChannel) (s : List Nat) (hd : decodeUtf8 b = some s)
    (hs : s ≠ []) (hsend : send (.data ch s) = true) :
    trySendBuffer send b ch = ([.data ch s], .ok) := by
  simp [trySendBuffer, hd, hsend, List.isEmpty_iff, hs]

theorem trySendBuffer_data_mem (send : ProcessEvent → Bool) (b : List Nat)
    (ch c : StdioChannel) (s : List Nat)
    (h : ProcessEvent.data c s ∈ (trySendBuffer send b ch).1) :
    c = ch ∧ decodeUtf8 b = some s ∧ s ≠ [] := by
  rcases trySendBuffer_cases send b ch with hc | ⟨_, hc⟩ | ⟨t, hd, ht, _, hc⟩
  · rw [hc] at h; simp at h
  · rw [hc] at h; simp at h
  · rw [hc] at h
    simp only [List.mem_singleton, ProcessEvent.data.injEq] at h
    exact ⟨h.1, h.2 ▸ hd, h.2 ▸ ht⟩

theorem runReader_shape (send : ProcessEvent → Bool) (ch : StdioChannel)
    (script : List ReadResult) :
    (∀ e ∈ runReader send ch script, e.isData = true) ∨
    (∃ evs err, runReader send ch script = evs ++ [err] ∧
      (∀ e ∈ evs, e.isData = true) ∧ err.isReaderError = true) := by
  induction script with
  | nil => exact Or.inl (by simp [runReader])
  | cons r rest ih =>
    cases r with
    | ok bytes =>
      by_cases hb : bytes.isEmpty
      · exact Or.inl (by simp [runReader, hb])
      · simp only [runReader, if_neg hb]
        rcases trySendBuffer_cases send bytes ch with hc | ⟨_, hc⟩ | ⟨s, _, _, _, hc⟩
        · rw [hc]; exact Or.inl (by simp)
        · rw [hc]
          exact Or.inr ⟨[], .utf8Error ch, by simp, by simp, rfl⟩
        · rw [hc]
          rcases ih with hall | ⟨evs, err, heq, hdata, herr⟩
          · refine Or.inl ?_
            intro e he
            rcases List.mem_append.mp he with h1 | h2
            · simp only [List.mem_singleton] at h1
              simp [h1, ProcessEvent.isData]
            · exact hall e h2
          · refine Or.inr ⟨.data ch s :: evs, err, ?_, ?_, herr⟩
            · simp [heq]
            · intro e he
              rcases List.mem_cons.mp he with h1 | h2
              · simp [h1, ProcessEvent.isData]
              · exact hdata e h2
    | err e =>
      cases hsend : send (.ioError ch e) with
      | true =>
        refine Or.inr ⟨[], .ioError ch e, ?_, by simp, rfl⟩
        simp [runReader, hsend]
      | false => exact Or.inl (by simp [runReader, hsend])

theorem runReader_zero_byte (send : ProcessEvent → Bool) (ch : StdioChannel)
    (pre post : List ReadResult) :
    runReader send ch (pre ++ .ok [] :: post) =
      runReader send ch (pre ++ [.ok []]) := by
  induction pre with
  | nil => simp [runReader]
  | cons r rest ih =>
    cases r with
    | ok bytes =>
      by_cases hb : bytes.isEmpty
      · simp [runReader, hb]
      · simp only [List.cons_append, runReader, if_neg hb]
        cases htsb : trySendBuffer send bytes ch with
        | mk evs sr =>
          cases sr with
          | ok => simp [ih]
          | abort => rfl
    | err e => rfl

theorem runReader_dataText (ch : StdioChannel) (chunks : List (List Nat))
    (hne : ∀ c ∈ chunks, c ≠ [])
    (hvalid : ∀ c ∈ chunks, (decodeUtf8 c).isSome = true) :
    ∃ T, decodeUtf8 chunks.flatten = some T ∧
      runReader (fun _ => true) ch (chunks.map ReadResult.ok ++ [.ok []]) =
        chunks.map (fun c => .data ch ((decodeUtf8 c).getD [])) ∧
      dataText (runReader (fun _ => true) ch
        (chunks.map ReadResult.ok ++ [.ok []])) = T := by
  induction chunks with
  | nil => exact ⟨[], by simp [decodeUtf8, utf8Run, utf8Boundary], by
      simp [runReader], by simp [runReader, dataText]⟩
  | cons c cs ih =>
    have hc : c ≠ [] := hne c (by simp)
    obtain ⟨s, hs⟩ : ∃ s, decodeUtf8 c = some s := by
      have := hvalid c (by simp)
      exact Option.isSome_iff_exists.mp this
    have hsne : s ≠ [] := by
      cases c with
      | nil => exact absurd rfl hc
      | cons b rest => exact decodeUtf8_cons_ne_nil b rest s hs
    obtain ⟨T, hT, hrun, htext⟩ := ih (fun x hx => hne x (by simp [hx]))
      (fun x hx => hvalid x (by simp [hx]))
    refine ⟨s ++ T, ?_, ?_, ?_⟩
    · rw [List.flatten_cons, decodeUtf8_append c cs.flatten s hs, hT]
      rfl
    · simp only [List.map_cons, List.cons_append, runReader]
      rw [if_neg (by simp [hc]), trySendBuffer_success (fun _ => true) c ch s hs hsne rfl]
      simp [hrun, hs]
    · simp only [List.map_cons, List.cons_append, runReader]
      rw [if_neg (by simp [hc]), trySendBuffer_success (fun _ => true) c ch s hs hsne rfl]
      simp [dataText, htext]

theorem stdoutStep_spec (send : ProcessEvent → Bool) (outB : List Nat) :
    (∃ evs, stdoutStep send outB = (evs, .ok) ∧ StdoutForwarded send outB evs) ∨
    (∃ evs, stdoutStep send outB = (evs, .abort) ∧
      (evs = [] ∨ evs = [.utf8Error .stdout])) := by
  by_cases hB : outB.isEmpty
  · exact Or.inl ⟨[], by simp [stdoutStep, hB],
      Or.inl ⟨by simpa [List.isEmpty_iff] using hB, rfl⟩⟩
  · simp only [stdoutStep, if_neg hB]
    rcases trySendBuffer_cases send outB .stdout with hc | ⟨_, hc⟩ | ⟨s, hd, hs, hsend, hc⟩
    · exact Or.inr ⟨[], hc, Or.inl rfl⟩
    · exact Or.inr ⟨[.utf8Error .stdout], hc, Or.inr rfl⟩
    · exact Or.inl ⟨[.data .stdout s], hc, Or.inr ⟨s, hd, hs, hsend, rfl⟩⟩

theorem stderrStep_spec (send : ProcessEvent → Bool) (errB : List Nat) :
    (∃ evs, stderrStep send errB = (evs, .ok) ∧ StderrForwarded send errB evs) ∨
    (∃ evs, stderrStep send errB = (evs, .abort) ∧
      (evs = [] ∨ evs = [.utf8Error .stderr])) := by
  by_cases hB : errB.isEmpty
  · exact Or.inl ⟨[], by simp [stderrStep, hB],
      Or.inl ⟨by simpa [List.isEmpty_iff] using hB, rfl⟩⟩
  · simp only [stderrStep, if_neg hB]
    rcases trySendBuffer_cases send errB .stderr with hc | ⟨_, hc⟩ | ⟨s, hd, hs, hsend, hc⟩
    · exact Or.inr ⟨[], hc, Or.inl rfl⟩
    · exact Or.inr ⟨[.utf8Error .stderr], hc, Or.inr rfl⟩
    · exact Or.inl ⟨[.data .stderr s], hc, Or.inr ⟨s, hd, hs, hsend, rfl⟩⟩

theorem runWaiter_ok_full (send : ProcessEvent → Bool) (outB errB : List Nat)
    (status : Nat) :
    (∃ t, (t = ([] : List ProcessEvent) ∨ t = [.utf8Error .stdout]) ∧
      runWaiter send (.ok outB errB status) = t) ∨
    (∃ d1 t, StdoutForwarded send outB d1 ∧
      (t = ([] : List ProcessEvent) ∨ t = [.utf8Error .stderr]) ∧
      runWaiter send (.ok outB errB status) = d1 ++ t) ∨
    (∃ d1 d2, StdoutForwarded send outB d1 ∧ StderrForwarded send errB d2 ∧
      runWaiter send (.ok outB errB status) =
        d1 ++ d2 ++ (if send (.exit status) then [.exit status] else [])) := by
  rcases stdoutStep_spec send outB with ⟨e1, h1, hf1⟩ | ⟨e1, h1, ha1⟩
  · rcases stderrStep_spec send errB with ⟨e2, h2, hf2⟩ | ⟨e2, h2, ha2⟩
    · exact Or.inr (Or.inr ⟨e1, e2, hf1, hf2, by simp [runWaiter, h1, h2]⟩)
    · exact Or.inr (Or.inl ⟨e1, e2, hf1, ha2, by simp [runWaiter, h1, h2]⟩)
  · exact Or.inl ⟨e1, ha1, by simp [runWaiter, h1]⟩

theorem isData_not_readerError (e : ProcessEvent) (h : e.isData = true) :
    e.isReaderError = false := by
  cases e <;> simp_all [ProcessEvent.isData, ProcessEvent.isReaderError]

theorem isData_not_exit (e : ProcessEvent) (h : e.isData = true) :
    (!e.isExit && !e.isCommandError) = true := by
  cases e <;> simp_all [ProcessEvent.isData, ProcessEvent.isExit,
    ProcessEvent.isCommandError]

theorem StdoutForwarded_eq (send : ProcessEvent → Bool) (outB : List Nat)
    (evs : List ProcessEvent) (h : StdoutForwarded send outB evs) :
    evs = if outB.isEmpty then []
      else [.data .stdout ((decodeUtf8 outB).getD [])] := by
  rcases h with ⟨hB, hevs⟩ | ⟨s, hd, hs, _, hevs⟩
  · simp [hB, hevs]
  · have hBne : outB ≠ [] := by
      intro hnil
      rw [hnil] at hd
      have : s = [] := by
        have : (some [] : Option (List Nat)) = some s := by
          rw [← hd]; rfl
        simpa using this.symm
      exact hs this
    rw [if_neg (by simpa [List.isEmpty_iff] using hBne), hevs, hd]
    rfl

theorem StderrForwarded_eq (send : ProcessEvent → Bool) (errB : List Nat)
    (evs : List ProcessEvent) (h : StderrForwarded send errB evs) :
    evs = if errB.isEmpty then []
      else [.data .stderr ((decodeUtf8 errB).getD [])] := by
  rcases h with ⟨hB, hevs⟩ | ⟨s, hd, hs, _, hevs⟩
  · simp [hB, hevs]
  · have hBne : errB ≠ [] := by
      intro hnil
      rw [hnil] at hd
      have : s = [] := by
        have : (some [] : Option (List Nat)) = some s := by
          rw [← hd]; rfl
        simpa using this.symm
      exact hs this
    rw [if_neg (by simpa [List.isEmpty_iff] using hBne), hevs, hd]
    rfl

/-- C4: for every script of read results, the stream reader delivers zero
or more `Data` events followed by at most one terminal `IoError`/`Utf8Error`
event (every non-final event is `Data`, and error events number at most
one), and a zero-byte read ends the loop: nothing after it in the script
contributes any event. -/
theorem runReader_event_shape (send : ProcessEvent → Bool) (ch : StdioChannel)
    (script : List ReadResult) :
    ((runReader send ch script).dropLast.all ProcessEvent.isData = true) ∧
    ((runReader send ch script).countP ProcessEvent.isReaderError ≤ 1) ∧
    (∀ pre post, runReader send ch (pre ++ .ok [] :: post) =
      runReader send ch (pre ++ [.ok []])) := by
  refine ⟨?_, ?_, runReader_zero_byte send ch⟩
  · rcases runReader_shape send ch script with hall | ⟨evs, err, heq, hdata, _⟩
    · rw [List.all_eq_true]
      intro e he
      exact hall e (List.dropLast_sublist _ |>.mem he)
    · rw [heq]
      have hdl : (evs ++ [err]).dropLast = evs := by simp
      rw [hdl, List.all_eq_true]
      exact hdata
  · rcases runReader_shape send ch script with hall | ⟨evs, err, heq, hdata, _⟩
    · have : (runReader send ch script).countP ProcessEvent.isReaderError = 0 := by
        rw [List.countP_eq_zero]
        intro e he
        simp [isData_not_readerError e (hall e he)]
      omega
    · rw [heq, List.countP_append]
      have h0 : evs.countP ProcessEvent.isReaderError = 0 := by
        rw [List.countP_eq_zero]
        intro e he
        simp [isData_not_readerError e (hdata e he)]
      have h1 : List.countP ProcessEvent.isReaderError [err] ≤ 1 := by
        simp [List.countP_cons]
        split <;> omega
      omega

/-- C5: when the per-chunk decode-and-send step is handed bytes that
decode to the empty string, it delivers no event and reports `Abort`
(a silent no-op, not an error), and a reader loop calling it on such a
chunk ends with no events. -/
theorem trySendBuffer_empty_decode (send : ProcessEvent → Bool)
    (ch : StdioChannel) (bytes : List Nat) (rest : List ReadResult)
    (h : decodeUtf8 bytes = some []) :
    trySendBuffer send bytes ch = ([], .abort) ∧
    runReader send ch (.ok bytes :: rest) = [] := by
  obtain rfl := decodeUtf8_eq_nil bytes h
  exact ⟨rfl, rfl⟩

/-- Witness for C5 at the concrete empty chunk. -/
theorem trySendBuffer_empty_decode_witness :
    trySendBuffer (fun _ => true) [] .stdout = ([], .abort) ∧
    runReader (fun _ => true) .stdout [.ok []] = [] :=
  trySendBuffer_empty_decode (fun _ => true) .stdout [] [] rfl

/-- C2: the exit waiter emits `Exit` at most once, every event before the
last one it delivers is a `Data` event (so `Exit`/`CommandError` can only
be its final event), and when `Exit(status)` is delivered the whole trace
is exactly the forwarded trailing stdout buffer, then the forwarded
trailing stderr buffer, then `Exit(status)` last. -/
theorem runWaiter_exit_invariant (send : ProcessEvent → Bool) (w : WaitResult) :
    ((runWaiter send w).dropLast.all
        (fun e => !e.isExit && !e.isCommandError) = true) ∧
    ((runWaiter send w).countP ProcessEvent.isExit ≤ 1) ∧
    (∀ outB errB status, w = .ok outB errB status →
      ProcessEvent.exit status ∈ runWaiter send w →
      runWaiter send w =
        (if outB.isEmpty then []
          else [.data .stdout ((decodeUtf8 outB).getD [])]) ++
        (if errB.isEmpty then []
          else [.data .stderr ((decodeUtf8 errB).getD [])]) ++
        [.exit status]) := by
  cases w with
  | err e =>
    refine ⟨?_, ?_, ?_⟩
    · simp only [runWaiter]
      split <;> simp
    · simp only [runWaiter]
      split <;> simp [List.countP_cons, ProcessEvent.isExit]
    · intro outB errB status hw
      exact absurd hw (by simp)
  | ok outB errB status =>
    rcases runWaiter_ok_full send outB errB status with
      ⟨t, ht, heq⟩ | ⟨d1, t, hf1, ht, heq⟩ | ⟨d1, d2, hf1, hf2, heq⟩
    · refine ⟨?_, ?_, ?_⟩
      · rcases ht with rfl | rfl <;> simp [heq]
      · rcases ht with rfl | rfl <;> simp [heq, ProcessEvent.isExit]
      · intro outB' errB' status' hw hmem
        obtain ⟨rfl, rfl, rfl⟩ : outB = outB' ∧ errB = errB' ∧ status = status' := by
          injection hw with h1 h2 h3
          exact ⟨h1, h2, h3⟩
        rw [heq] at hmem
        rcases ht with rfl | rfl <;> simp at hmem
    · have hd1 := StdoutForwarded_eq send outB d1 hf1
      refine ⟨?_, ?_, ?_⟩
      · rw [heq, hd1]
        rcases ht with rfl | rfl <;> split <;>
          simp [ProcessEvent.isExit, ProcessEvent.isCommandError]
      · rw [heq, hd1]
        rcases ht with rfl | rfl <;> split <;>
          simp [List.countP_cons, List.countP_append, ProcessEvent.isExit]
      · intro outB' errB' status' hw hmem
        obtain ⟨rfl, rfl, rfl⟩ : outB = outB' ∧ errB = errB' ∧ status = status' := by
          injection hw with h1 h2 h3
          exact ⟨h1, h2, h3⟩
        rw [heq, hd1] at hmem
        rcases ht with rfl | rfl <;> split at hmem <;> simp at hmem
    · have hd1 := StdoutForwarded_eq send outB d1 hf1
      have hd2 := StderrForwarded_eq send errB d2 hf2
      refine ⟨?_, ?_, ?_⟩
      · rw [heq, hd1, hd2]
        split <;> split <;> split <;>
          simp [ProcessEvent.isExit, ProcessEvent.isCommandError]
      · rw [heq, hd1, hd2]
        split <;> split <;> split <;>
          simp [List.countP_cons, List.countP_append, ProcessEvent.isExit]
      · intro outB' errB' status' hw hmem
        obtain ⟨rfl, rfl, rfl⟩ : outB = outB' ∧ errB = errB' ∧ status = status' := by
          injection hw with h1 h2 h3
          exact ⟨h1, h2, h3⟩
        rw [heq] at hmem ⊢
        rw [hd1, hd2]
        rw [hd1, hd2] at hmem
        cases hse : send (.exit status) with
        | true => simp [hse]
        | false =>
          rw [hse] at hmem
          split at hmem <;> split at hmem <;> simp at hmem

/-- Witness for C2: a successful wait with one-byte trailing buffers on
both streams delivers the two `Data` events and then `Exit 0` last. -/
theorem runWaiter_exit_invariant_witness :
    runWaiter (fun _ => true) (.ok [104] [105] 0) =
      [.data .stdout [104], .data .stderr [105], .exit 0] :=
  (runWaiter_exit_invariant (fun _ => true) (.ok [104] [105] 0)).2.2
    [104] [105] 0 rfl (by decide)

/-- C3: if the blocking `wait_with_output` fails the exit waiter delivers
exactly one `CommandError` (when the channel accepts it) and never any
`Exit`; and an `Exit(status)` can only be delivered when the exit send
was accepted and every non-empty trailing buffer decoded successfully
and had its `Data` event accepted — so a `Utf8Error` or a send failure
while forwarding a trailing buffer aborts the thread without `Exit`. -/
theorem runWaiter_failure_no_exit (send : ProcessEvent → Bool) (e : Nat)
    (outB errB : List Nat) (status : Nat) :
    ((send (.commandError e) = true →
        runWaiter send (.err e) = [.commandError e]) ∧
      (runWaiter send (.err e)).countP ProcessEvent.isExit = 0) ∧
    (ProcessEvent.exit status ∈ runWaiter send (.ok outB errB status) →
      send (.exit status) = true ∧
      (outB ≠ [] → ∃ s, decodeUtf8 outB = some s ∧ send (.data .stdout s) = true) ∧
      (errB ≠ [] → ∃ s, decodeUtf8 errB = some s ∧ send (.data .stderr s) = true)) := by
  refine ⟨⟨?_, ?_⟩, ?_⟩
  · intro hsend
    simp [runWaiter, hsend]
  · simp only [runWaiter]
    split <;> simp [List.countP_cons, ProcessEvent.isExit]
  · intro hmem
    rcases runWaiter_ok_full send outB errB status with
      ⟨t, ht, heq⟩ | ⟨d1, t, hf1, ht, heq⟩ | ⟨d1, d2, hf1, hf2, heq⟩
    · rw [heq] at hmem
      rcases ht with rfl | rfl <;> simp at hmem
    · rw [heq, StdoutForwarded_eq send outB d1 hf1] at hmem
      rcases ht with rfl | rfl <;> split at hmem <;> simp at hmem
    · rw [heq, StdoutForwarded_eq send outB d1 hf1,
        StderrForwarded_eq send errB d2 hf2] at hmem
      cases hse : send (.exit status) with
      | false =>
        rw [hse] at hmem
        split at hmem <;> split at hmem <;> simp at hmem
      | true =>
        refine ⟨rfl, ?_, ?_⟩
        · intro hBne
          rcases hf1 with ⟨hB, _⟩ | ⟨s, hd, _, hsend, _⟩
          · exact absurd hB hBne
          · exact ⟨s, hd, hsend⟩
        · intro hBne
          rcases hf2 with ⟨hB, _⟩ | ⟨s, hd, _, hsend, _⟩
          · exact absurd hB hBne
          · exact ⟨s, hd, hsend⟩

/-- Witness for C3: with every send accepted, a wait error delivers the
single `CommandError` with no `Exit`, and a delivered `Exit` implies the
trailing stdout buffer was decoded and forwarded. -/
theorem runWaiter_failure_no_exit_witness :
    runWaiter (fun _ => true) (.err 7) = [.commandError 7] ∧
    (([104] : List Nat) ≠ [] →
      ∃ s, decodeUtf8 [104] = some s ∧ (fun _ => true) (ProcessEvent.data .stdout s) = true) :=
  ⟨((runWaiter_failure_no_exit (fun _ => true) 7 [104] [] 0).1.1 rfl),
    ((runWaiter_failure_no_exit (fun _ => true) 7 [104] [] 0).2 (by decide)).2.1⟩

/-- C9: every `Data` event delivered through the channel — by a stream
reader or by the exit waiter's trailing-buffer forwarding — carries a
non-empty decoded text. -/
theorem data_events_nonempty (send : ProcessEvent → Bool) (ch : StdioChannel)
    (script : List ReadResult) (w : WaitResult) (c : StdioChannel)
    (s : List Nat) :
    (ProcessEvent.data c s ∈ runReader send ch script → s ≠ []) ∧
    (ProcessEvent.data c s ∈ runWaiter send w → s ≠ []) := by
  constructor
  · induction script with
    | nil => intro h; simp [runReader] at h
    | cons r rest ih =>
      intro h
      cases r with
      | ok bytes =>
        by_cases hb : bytes.isEmpty
        · simp [runReader, hb] at h
        · simp only [runReader, if_neg hb] at h
          rcases htsb : trySendBuffer send bytes ch with ⟨evs, sr⟩
          rw [htsb] at h
          cases sr with
          | ok =>
            rcases List.mem_append.mp h with h1 | h2
            · exact (trySendBuffer_data_mem send bytes ch c s (htsb ▸ h1)).2.2
            · exact ih h2
          | abort => exact (trySendBuffer_data_mem send bytes ch c s (htsb ▸ h)).2.2
      | err e =>
        simp only [runReader] at h
        split at h <;> simp at h
  · intro h
    cases w with
    | err e =>
      simp only [runWaiter] at h
      split at h <;> simp at h
    | ok outB errB status =>
      rcases runWaiter_ok_full send outB errB status with
        ⟨t, ht, heq⟩ | ⟨d1, t, hf1, ht, heq⟩ | ⟨d1, d2, hf1, hf2, heq⟩
      · rw [heq] at h
        rcases ht with rfl | rfl <;> simp at h
      · rw [heq] at h
        rcases List.mem_append.mp h with h1 | h2
        · rcases hf1 with ⟨_, rfl⟩ | ⟨t', _, ht', _, rfl⟩
          · simp at h1
          · simp only [List.mem_singleton, ProcessEvent.data.injEq] at h1
            exact h1.2 ▸ ht'
        · rcases ht with rfl | rfl <;> simp at h2
      · rw [heq] at h
        rcases List.mem_append.mp h with h12 | h3
        · rcases List.mem_append.mp h12 with h1 | h2
          · rcases hf1 with ⟨_, rfl⟩ | ⟨t', _, ht', _, rfl⟩
            · simp at h1
            · simp only [List.mem_singleton, ProcessEvent.data.injEq] at h1
              exact h1.2 ▸ ht'
          · rcases hf2 with ⟨_, rfl⟩ | ⟨t', _, ht', _, rfl⟩
            · simp at h2
            · simp only [List.mem_singleton, ProcessEvent.data.injEq] at h2
              exact h2.2 ▸ ht'
        · split at h3 <;> simp at h3

/-- Witness for C9: a one-byte chunk read by the reader and a one-byte
trailing stdout buffer forwarded by the waiter both yield non-empty
`Data` payloads. -/
theorem data_events_nonempty_witness :
    (([104] : List Nat) ≠ []) ∧ (([105] : List Nat) ≠ []) :=
  ⟨(data_events_nonempty (fun _ => true) .stdout [.ok [104], .ok []]
      (.ok [] [] 0) .stdout [104]).1 (by decide),
    (data_events_nonempty (fun _ => true) .stdout [.ok []]
      (.ok [105] [] 0) .stdout [105]).2 (by decide)⟩

/-- C7: on a `Process` whose child was spawned without capturing stdin,
`write` and `flush` return the `NotConnected` error and leave the
process unchanged; when stdin was captured they pass straight through to
the child's input stream, returning its result and updated state. -/
theorem write_flush_stdin (σ : Type)
    (stdinWrite : σ → List Nat → Except WriteError Nat × σ)
    (stdinFlush : σ → Except WriteError Unit × σ)
    (p : Process σ) (buf : List Nat) :
    (p.stdin = none →
      Process.write stdinWrite p buf = (.error .notConnected, p) ∧
      Process.flush stdinFlush p = (.error .notConnected, p)) ∧
    (∀ s, p.stdin = some s →
      Process.write stdinWrite p buf =
        ((stdinWrite s buf).1, { p with stdin := some (stdinWrite s buf).2 }) ∧
      Process.flush stdinFlush p =
        ((stdinFlush s).1, { p with stdin := some (stdinFlush s).2 })) := by
  constructor
  · intro hnone
    cases p with
    | mk st id =>
      cases st with
      | none => exact ⟨rfl, rfl⟩
      | some s => exact Option.noConfusion hnone
  · intro s hsome
    cases p with
    | mk st id =>
      cases st with
      | none => exact Option.noConfusion hsome
      | some s' =>
        obtain rfl : s' = s := by injection hsome
        exact ⟨rfl, rfl⟩

/-- Witness for C7: a process without stdin gets `NotConnected` from
`write`, and one with stdin passes through to the stream. -/
theorem write_flush_stdin_witness :
    Process.write (fun (s : List Nat) buf => (.ok buf.length, s ++ buf))
        ⟨none, 7⟩ [1, 2] = (.error .notConnected, ⟨none, 7⟩) ∧
    Process.write (fun (s : List Nat) buf => (.ok buf.length, s ++ buf))
        ⟨some [0], 7⟩ [1, 2] = (.ok 2, ⟨some [0, 1, 2], 7⟩) :=
  ⟨((write_flush_stdin (List Nat)
      (fun s buf => (.ok buf.length, s ++ buf))
      (fun s => (.ok (), s)) ⟨none, 7⟩ [1, 2]).1 rfl).1,
    ((write_flush_stdin (List Nat)
      (fun s buf => (.ok buf.length, s ++ buf))
      (fun s => (.ok (), s)) ⟨some [0], 7⟩ [1, 2]).2 [0] rfl).1⟩

/-- C8: once `try_recv` has returned `Disconnected` (no queued event and
every sender dropped), every state the channel can subsequently reach
keeps returning `Disconnected`: no step can enqueue an event or revive a
sender. -/
theorem tryRecv_disconnected_sticky (s s' : ChannelState)
    (h : (tryRecv s).1 = .error .disconnected)
    (hsteps : Relation.ReflTransGen ChannelStep s s') :
    (tryRecv s').1 = .error .disconnected := by
  have hs : s = ⟨[], 0⟩ := by
    obtain ⟨q, n⟩ := s
    cases q with
    | nil =>
      cases n with
      | zero => rfl
      | succ m => simp [tryRecv] at h
    | cons e q' => simp [tryRecv] at h
  subst hs
  have : s' = ⟨[], 0⟩ := by
    rcases Relation.ReflTransGen.cases_head hsteps with heq | ⟨m, hstep, _⟩
    · exact heq.symm
    · cases hstep
  rw [this]
  rfl

/-- Witness for C8: the drained, all-senders-dropped state reports
`Disconnected`, and stays `Disconnected` after zero steps. -/
theorem tryRecv_disconnected_sticky_witness :
    (tryRecv ⟨[], 0⟩).1 = .error .disconnected :=
  tryRecv_disconnected_sticky ⟨[], 0⟩ ⟨[], 0⟩ rfl Relation.ReflTransGen.refl

set_option maxRecDepth 100000 in
/-- C1 counterexample: the child writes 1025 bytes of valid UTF-8 text
(1023 `a`s followed by the two-byte `é`), but the fixed 1024-byte read
buffer splits `é` across two reads.  The first chunk alone is not valid
UTF-8, so the reader delivers a single `Utf8Error` and no `Data` event
at all: the bytes are dropped, not delivered exactly once. -/
theorem reader_split_utf8_char_counterexample :
    splitChunk1.length = 1024 ∧
    decodeUtf8 (splitChunk1 ++ splitChunk2) =
      some (List.replicate 1023 0x61 ++ [0xE9]) ∧
    runReader (fun _ => true) .stdout
        [.ok splitChunk1, .ok splitChunk2, .ok []] = [.utf8Error .stdout] ∧
    dataText (runReader (fun _ => true) .stdout
        [.ok splitChunk1, .ok splitChunk2, .ok []]) = [] ∧
    (List.replicate 1023 0x61 ++ [0xE9] : List Nat) ≠ [] := by
  refine ⟨by decide, by decide, by decide, by decide, by decide⟩

/-- C1 (amended): when every read chunk is itself valid UTF-8 (the chunk
boundaries fall on character boundaries) and the channel accepts every
send, the reader delivers one `Data` event per chunk, in order, whose
concatenated text is exactly the decoding of the full byte stream —
every byte exactly once, never duplicated, never dropped. -/
theorem reader_delivers_all_of_aligned (ch : StdioChannel)
    (chunks : List (List Nat))
    (hne : ∀ c ∈ chunks, c ≠ [])
    (hvalid : ∀ c ∈ chunks, (decodeUtf8 c).isSome = true) :
    ∃ T, decodeUtf8 chunks.flatten = some T ∧
      runReader (fun _ => true) ch (chunks.map ReadResult.ok ++ [.ok []]) =
        chunks.map (fun c => .data ch ((decodeUtf8 c).getD [])) ∧
      dataText (runReader (fun _ => true) ch
        (chunks.map ReadResult.ok ++ [.ok []])) = T :=
  runReader_dataText ch chunks hne hvalid

/-- Witness for the amended C1: the chunks `"hé"`, `"llo"` are delivered
as two `Data` events concatenating to `"héllo"`. -/
theorem reader_delivers_all_of_aligned_witness :
    ∃ T, decodeUtf8 ([[0x68, 0xC3, 0xA9], [0x6C, 0x6C, 0x6F]] : List (List Nat)).flatten = some T ∧
      runReader (fun _ => true) .stdout
          ([[0x68, 0xC3, 0xA9], [0x6C, 0x6C, 0x6F]].map ReadResult.ok ++ [.ok []]) =
        [[0x68, 0xC3, 0xA9], [0x6C, 0x6C, 0x6F]].map
          (fun c => .data .stdout ((decodeUtf8 c).getD [])) ∧
      dataText (runReader (fun _ => true) .stdout
          ([[0x68, 0xC3, 0xA9], [0x6C, 0x6C, 0x6F]].map ReadResult.ok ++ [.ok []])) = T :=
  reader_delivers_all_of_aligned .stdout [[0x68, 0xC3, 0xA9], [0x6C, 0x6C, 0x6F]]
    (by decide) (by decide)


theorem killSpec (term : Nat → Bool) (processes : List (Nat × List Nat)) :
    ∀ fuel : Nat,
      (∀ pid trace ok, killPid term processes fuel pid = some (trace, ok) →
        (ok = true → postorder processes fuel pid = some trace ∧
          trace.getLast? = some pid ∧ ∀ p ∈ trace, term p = true) ∧
        (ok = false → ∃ pre f, trace = pre ++ [f] ∧ term f = false ∧
          ∀ p ∈ pre, term p = true)) ∧
      (∀ cs trace ok, killChildren term processes fuel cs = some (trace, ok) →
        (ok = true → postorderList processes fuel cs = some trace ∧
          ∀ p ∈ trace, term p = true) ∧
        (ok = false → ∃ pre f, trace = pre ++ [f] ∧ term f = false ∧
          ∀ p ∈ pre, term p = true)) := by
  intro fuel
  induction fuel with
  | zero =>
    constructor
    · intro pid trace ok h
      simp [killPid] at h
    · intro cs trace ok h
      cases cs with
      | nil =>
        simp only [killChildren, Option.some.injEq, Prod.mk.injEq] at h
        obtain ⟨rfl, rfl⟩ := h
        refine ⟨fun _ => ⟨by simp [postorderList], by simp⟩, fun hf => ?_⟩
        exact absurd hf (by simp)
      | cons c cs' =>
        simp [killChildren, killPid] at h
  | succ fuel ih =>
    obtain ⟨ihP, ihC⟩ := ih
    have hkp : ∀ pid trace ok,
        killPid term processes (fuel + 1) pid = some (trace, ok) →
        (ok = true → postorder processes (fuel + 1) pid = some trace ∧
          trace.getLast? = some pid ∧ ∀ p ∈ trace, term p = true) ∧
        (ok = false → ∃ pre f, trace = pre ++ [f] ∧ term f = false ∧
          ∀ p ∈ pre, term p = true) := by
      intro pid trace ok h
      rw [killPid] at h
      cases hl : lookupChildren processes pid with
      | none =>
        simp only [hl] at h
        simp only [Option.some.injEq, Prod.mk.injEq] at h
        obtain ⟨rfl, rfl⟩ := h
        constructor
        · intro htrue
          refine ⟨?_, by simp, by simp [htrue]⟩
          simp only [postorder, hl]
        · intro hfalse
          exact ⟨[], pid, by simp, hfalse, by simp⟩
      | some children =>
        simp only [hl] at h
        cases hk : killChildren term processes fuel children with
        | none =>
          simp only [hk] at h
          exact Option.noConfusion h
        | some r =>
          obtain ⟨tr, b⟩ := r
          simp only [hk] at h
          cases b with
          | false =>
            simp only [Option.some.injEq, Prod.mk.injEq] at h
            obtain ⟨rfl, rfl⟩ := h
            refine ⟨fun htrue => absurd htrue (by simp), fun _ => ?_⟩
            exact ((ihC children tr false hk).2 rfl)
          | true =>
            simp only [Option.some.injEq, Prod.mk.injEq] at h
            obtain ⟨rfl, rfl⟩ := h
            obtain ⟨hpo, hall⟩ := (ihC children tr true hk).1 rfl
            constructor
            · intro htrue
              refine ⟨?_, by simp, ?_⟩
              · simp only [postorder, hl, hpo]
              · intro p hp
                rcases List.mem_append.mp hp with h1 | h2
                · exact hall p h1
                · simp only [List.mem_singleton] at h2
                  rw [h2, htrue]
            · intro hfalse
              exact ⟨tr, pid, rfl, hfalse, hall⟩
    refine ⟨hkp, ?_⟩
    intro cs
    induction cs with
    | nil =>
      intro trace ok h
      simp only [killChildren, Option.some.injEq, Prod.mk.injEq] at h
      obtain ⟨rfl, rfl⟩ := h
      refine ⟨fun _ => ⟨by simp [postorderList], by simp⟩, fun hf => ?_⟩
      exact absurd hf (by simp)
    | cons c cs' ihcs =>
      intro trace ok h
      rw [killChildren] at h
      cases hp : killPid term processes (fuel + 1) c with
      | none =>
        simp only [hp] at h
        exact Option.noConfusion h
      | some r =>
        obtain ⟨tr, b⟩ := r
        simp only [hp] at h
        cases b with
        | false =>
          simp only [Option.some.injEq, Prod.mk.injEq] at h
          obtain ⟨rfl, rfl⟩ := h
          refine ⟨fun htrue => absurd htrue (by simp), fun _ => ?_⟩
          exact (hkp c tr false hp).2 rfl
        | true =>
          cases hrest : killChildren term processes (fuel + 1) cs' with
          | none =>
            simp only [hrest] at h
            exact Option.noConfusion h
          | some r2 =>
            obtain ⟨tr2, b2⟩ := r2
            simp only [hrest] at h
            simp only [Option.some.injEq, Prod.mk.injEq] at h
            obtain ⟨rfl, rfl⟩ := h
            obtain ⟨hpo1, _, hall1⟩ := (hkp c tr true hp).1 rfl
            cases b2 with
            | true =>
              obtain ⟨hpo2, hall2⟩ := (ihcs tr2 true hrest).1 rfl
              refine ⟨fun _ => ⟨?_, ?_⟩, fun hf => absurd hf (by simp)⟩
              · simp only [postorderList, hpo1, hpo2]
              · intro p hp'
                rcases List.mem_append.mp hp' with h1 | h2
                · exact hall1 p h1
                · exact hall2 p h2
            | false =>
              obtain ⟨pre, f, hdec, hf, hallpre⟩ := (ihcs tr2 false hrest).2 rfl
              refine ⟨fun htrue => absurd htrue (by simp), fun _ => ?_⟩
              refine ⟨tr ++ pre, f, by rw [hdec, List.append_assoc], hf, ?_⟩
              intro p hp'
              rcases List.mem_append.mp hp' with h1 | h2
              · exact hall1 p h1
              · exact hallpre p h2

/-- C6: whenever the recursive windows `kill_pid` completes on `Ok`, the
terminate calls it made are exactly the depth-first, leaves-first
post-order traversal of the snapshot tree below the target — the target
itself is terminated last, only after all recorded descendants, and every
terminate succeeded; and whenever it returns an error, the failing
terminate is the last call made (the whole operation aborts there, with
no partial-success result: every earlier call succeeded and the error is
surfaced). -/
theorem killPid_depth_first (term : Nat → Bool)
    (processes : List (Nat × List Nat)) (fuel pid : Nat)
    (trace : List Nat) (ok : Bool)
    (h : killPid term processes fuel pid = some (trace, ok)) :
    (ok = true → postorder processes fuel pid = some trace ∧
      trace.getLast? = some pid ∧ ∀ p ∈ trace, term p = true) ∧
    (ok = false → ∃ pre f, trace = pre ++ [f] ∧ term f = false ∧
      ∀ p ∈ pre, term p = true) :=
  (killSpec term processes fuel).1 pid trace ok h

/-- Witness for C6: on the snapshot `{1 ↦ [2, 3], 2 ↦ [4]}`, killing 1
with every terminate succeeding walks `[4, 2, 3, 1]` (post-order, target
last); with terminate failing on 2, the calls are `[4, 2]` and the
operation aborts with the error. -/
theorem killPid_depth_first_witness :
    (postorder [(1, [2, 3]), (2, [4])] 3 1 = some [4, 2, 3, 1] ∧
      ([4, 2, 3, 1] : List Nat).getLast? = some 1 ∧
      ∀ p ∈ ([4, 2, 3, 1] : List Nat), (fun _ => true) p = true) ∧
    (∃ pre f, ([4, 2] : List Nat) = pre ++ [f] ∧
      (fun p => !(p == 2)) f = false ∧
      ∀ p ∈ pre, (fun p => !(p == 2)) p = true) :=
  ⟨(killPid_depth_first (fun _ => true) [(1, [2, 3]), (2, [4])] 3 1
      [4, 2, 3, 1] true
      (by simp [killPid, killChildren, lookupChildren])).1 rfl,
    (killPid_depth_first (fun p => !(p == 2)) [(1, [2, 3]), (2, [4])] 3 1
      [4, 2] false
      (by simp [killPid, killChildren, lookupChildren])).2 rfl⟩

theorem killChildren_isSome (term : Nat → Bool)
    (processes : List (Nat × List Nat)) (fuel : Nat) (cs : List Nat)
    (h : ∀ c ∈ cs, killPid term processes fuel c ≠ none) :
    killChildren term processes fuel cs ≠ none := by
  induction cs with
  | nil => simp [killChildren]
  | cons c cs' ih =>
    cases hp : killPid term processes fuel c with
    | none => exact absurd hp (h c (by simp))
    | some r =>
      obtain ⟨tr, b⟩ := r
      cases b with
      | false => simp [killChildren, hp]
      | true =>
        cases hrest : killChildren term processes fuel cs' with
        | none => exact absurd hrest (ih (fun x hx => h x (by simp [hx])))
        | some r2 => simp [killChildren, hp, hrest]

theorem nodup_subset_length (l keys : List Nat) (hnd : l.Nodup)
    (hk : keys.Nodup) (hsub : ∀ x ∈ l, x ∈ keys) : l.length ≤ keys.length := by
  have h3 : l.toFinset ⊆ keys.toFinset := by
    intro x hx
    rw [List.mem_toFinset] at hx ⊢
    exact hsub x hx
  calc l.length = l.toFinset.card := (List.toFinset_card_of_nodup hnd).symm
    _ ≤ keys.toFinset.card := Finset.card_le_card h3
    _ = keys.length := List.toFinset_card_of_nodup hk

theorem killPid_fuel (term : Nat → Bool) (processes : List (Nat × List Nat))
    (hacyc : ∀ p, ¬ Relation.TransGen (childOf processes) p p) :
    ∀ (fuel : Nat) (pid : Nat) (seen : List Nat),
      seen.Nodup →
      (∀ s ∈ seen, s ∈ snapKeys processes) →
      (∀ s ∈ seen, Relation.TransGen (childOf processes) pid s) →
      (snapKeys processes).length + 1 ≤ fuel + seen.length →
      killPid term processes fuel pid ≠ none := by
  intro fuel
  induction fuel with
  | zero =>
    intro pid seen hnd hsub _ hbound
    exfalso
    have hlen : seen.length ≤ (snapKeys processes).length :=
      nodup_subset_length seen (snapKeys processes) hnd
        (List.nodup_dedup _) hsub
    omega
  | succ fuel ih =>
    intro pid seen hnd hsub hreach hbound
    cases hl : lookupChildren processes pid with
    | none => simp [killPid, hl]
    | some children =>
      have hkey : pid ∈ snapKeys processes := by
        have hmap : pid ∈ processes.map Prod.fst := by
          obtain ⟨entry, hfind⟩ : ∃ entry,
              processes.find? (fun en => en.1 = pid) = some entry := by
            cases hf : processes.find? (fun en => en.1 = pid) with
            | none =>
              rw [lookupChildren, hf] at hl
              exact Option.noConfusion hl
            | some entry => exact ⟨entry, rfl⟩
          have hmem := List.mem_of_find?_eq_some hfind
          have hpeq : entry.1 = pid := by
            simpa using List.find?_some hfind
          exact hpeq ▸ List.mem_map_of_mem Prod.fst hmem
        simpa [snapKeys, List.mem_dedup] using hmap
      have hnotseen : pid ∉ seen := fun hmem => hacyc pid (hreach pid hmem)
      have hchild : ∀ c ∈ children, childOf processes c pid := by
        intro c hc
        simp only [childOf, childrenOf, hl, Option.getD_some]
        exact hc
      have hrec : ∀ c ∈ children, killPid term processes fuel c ≠ none := by
        intro c hc
        refine ih c (pid :: seen) (by simp [hnd, hnotseen]) ?_ ?_ ?_
        · intro s hs
          rcases List.mem_cons.mp hs with rfl | hs'
          · exact hkey
          · exact hsub s hs'
        · intro s hs
          rcases List.mem_cons.mp hs with rfl | hs'
          · exact Relation.TransGen.single (hchild c hc)
          · exact Relation.TransGen.head (hchild c hc) (hreach s hs')
        · simp only [List.length_cons]
          omega
      cases hk : killChildren term processes fuel children with
      | none => exact absurd hk (killChildren_isSome term processes fuel children hrec)
      | some r =>
        obtain ⟨tr, b⟩ := r
        cases b with
        | false => simp [killPid, hl, hk]
        | true => simp [killPid, hl, hk]

/-- C10: on an acyclic snapshot map — no pid reachable from itself
through the recorded parent-child edges — the recursive `kill_pid`
terminates: fuel one larger than the number of recorded parent pids
always suffices, for any terminate oracle and any starting pid. -/
theorem killPid_terminates_of_acyclic (term : Nat → Bool)
    (processes : List (Nat × List Nat)) (pid : Nat)
    (hacyc : ∀ p, ¬ Relation.TransGen (childOf processes) p p) :
    killPid term processes ((snapKeys processes).length + 1) pid ≠ none :=
  killPid_fuel term processes hacyc _ pid [] (by simp) (by simp) (by simp)
    (by simp)

/-- Witness for C10: the empty snapshot map is acyclic, and `kill_pid`
on it completes within the fuel bound. -/
theorem killPid_terminates_of_acyclic_witness :
    killPid (fun _ => true) [] 1 0 ≠ none :=
  killPid_terminates_of_acyclic (fun _ => true) [] 0 (fun p h => by
    have hno : ∀ a b : Nat, ¬ childOf ([] : List (Nat × List Nat)) a b := by
      intro a b hab
      simp [childOf, childrenOf, lookupChildren] at hab
    cases h with
    | single hs => exact hno _ _ hs
    | tail _ hs => exact hno _ _ hs)
